import Mathlib

/-!
Verification of the AWS DynamoDB chat store
(`llama_index/storage/chat_store/aws/utils.py` and `base.py`).

The codec (`serialize`/`deserialize`) and the adapter operations are
shallowly embedded.  Python runtime values are modelled by the inductive
type `Py`; machine floats are idealised as exact rationals (no claim below
depends on binary64 rounding).
-/

namespace AwsChatStore

/-- A Python runtime value, as the codec sees it.  `float` carries the exact
rational value of the binary64 float (idealisation: all float literals in the
claims are exactly representable).  `other` stands for a value of any type
with no branch in `serialize` (bytes, custom objects, ...), identified by its
type name. -/
inductive Py where
  | str (s : String)
  | int (n : Int)
  | bool (b : Bool)
  | float (q : ℚ)
  | none
  | dict (fields : List (String × Py))
  | list (elems : List Py)
  | other (typeName : String)

/-- Errors raised by the codec.  `unsupportedType` is the `TypeError` on the
last line of `serialize`; `unsupportedTag` the `TypeError` on the last line of
`deserialize`; `valueError` the `ValueError` that `float(text)` raises on a
non-numeric string; `typeErr` stands for the exceptions Python raises when a
tagged value or payload has the wrong shape (subscripting / iterating a
non-dict, calling `.isdigit()` on a non-string): all of these paths end in a
raised exception, modelled uniformly. -/
inductive PyErr where
  | unsupportedType (typeName key : String)
  | unsupportedTag (key : String)
  | valueError (text : String)
  | typeErr (key : String)
  | indexOutOfBounds (idx : Int)
deriving DecidableEq

/-! ### Decimal digits (model of Python's decimal rendering of integers) -/

/-- `digitChar d` for `d < 10`.  Matches `Nat.digitChar` on that range but is
defined by cases so that it reduces definitionally. -/
def digitChar (d : Nat) : Char :=
  match d with
  | 0 => '0' | 1 => '1' | 2 => '2' | 3 => '3' | 4 => '4'
  | 5 => '5' | 6 => '6' | 7 => '7' | 8 => '8' | _ => '9'

/-- Fuel-indexed decimal digit list of `n`, most significant digit first.
Correct whenever `n < 10 ^ fuel` (see `digitsVal_decDigitsCore`). -/
def decDigitsCore : Nat → Nat → List Char
  | 0, _ => []
  | fuel + 1, n =>
      if n < 10 then [digitChar n]
      else decDigitsCore fuel (n / 10) ++ [digitChar (n % 10)]

/-- Decimal digit characters of `n`, most significant first, no leading
zeros (`"0"` for `0`): the model of Python's `str` on a non-negative `int`. -/
def decDigits (n : Nat) : List Char :=
  decDigitsCore (n + 1) n

/-- Numeric value of a list of decimal digit characters. -/
def digitsVal : List Char → Nat
  | [] => 0
  | c :: cs => (c.toNat - 48) * 10 ^ cs.length + digitsVal cs

/-- Model of Python `str` on an `int` (sign, then decimal digits). -/
def pyIntStr (n : Int) : String :=
  if n < 0 then String.mk ('-' :: decDigits n.natAbs)
  else String.mk (decDigits n.natAbs)

/-- Model of Python `str.isdigit`: nonempty and every character a decimal
digit (Unicode digit classes beyond ASCII are not modelled; the codec only
ever feeds it ASCII renderings). -/
def pyIsdigit (s : String) : Bool :=
  !s.data.isEmpty && s.data.all Char.isDigit

/-- Model of Python `int(text)` restricted to all-digit strings — the only
calls the code makes, each guarded by `isdigit`. -/
def pyIntOfDigits (s : String) : Int :=
  (digitsVal s.data : Int)

/-! ### Model of Python `float(text)` and `str(float)` -/

/-- Value of the fractional digit list `ds` read as `0.ds`. -/
def fracVal (ds : List Char) : ℚ :=
  (digitsVal ds : ℚ) / (10 : ℚ) ^ ds.length

/-- Model of CPython `float(text)` on finite decimal literals:
optional sign, digits with an optional single point (at least one digit
overall), optional exponent.  The result is the exact rational value
(idealising away binary64 rounding); `none` models the raised `ValueError`.
`inf`/`nan` words, underscores and surrounding whitespace are not modelled:
no input in the claims uses them. -/
def pyFloat (s : String) : Option ℚ :=
  let step1 : Bool × List Char :=
    match s.data with
    | '-' :: rest => (true, rest)
    | '+' :: rest => (false, rest)
    | cs => (false, cs)
  let neg := step1.1
  let ip := step1.2.takeWhile Char.isDigit
  let afterIp := step1.2.dropWhile Char.isDigit
  let step2 : List Char × List Char :=
    match afterIp with
    | '.' :: rest => (rest.takeWhile Char.isDigit, rest.dropWhile Char.isDigit)
    | cs => ([], cs)
  let fp := step2.1
  let afterFp := step2.2
  if ip.isEmpty && fp.isEmpty then Option.none
  else
    let expo : Option Int :=
      match afterFp with
      | [] => some 0
      | 'e' :: rest =>
          match rest with
          | '-' :: ds => if !ds.isEmpty && ds.all Char.isDigit then some (-(digitsVal ds : Int)) else Option.none
          | '+' :: ds => if !ds.isEmpty && ds.all Char.isDigit then some (digitsVal ds : Int) else Option.none
          | ds => if !ds.isEmpty && ds.all Char.isDigit then some (digitsVal ds : Int) else Option.none
      | 'E' :: rest =>
          match rest with
          | '-' :: ds => if !ds.isEmpty && ds.all Char.isDigit then some (-(digitsVal ds : Int)) else Option.none
          | '+' :: ds => if !ds.isEmpty && ds.all Char.isDigit then some (digitsVal ds : Int) else Option.none
          | ds => if !ds.isEmpty && ds.all Char.isDigit then some (digitsVal ds : Int) else Option.none
      | _ => Option.none
    match expo with
    | Option.none => Option.none
    | some e =>
        let mant : ℚ := (digitsVal ip : ℚ) + fracVal fp
        let scaled : ℚ := if 0 ≤ e then mant * (10 : ℚ) ^ e.toNat else mant / (10 : ℚ) ^ (-e).toNat
        some (if neg then -scaled else scaled)

/-- Fractional decimal digits of `q` (`0 ≤ q < 1` intended), with fuel.
Binary64 floats have a finite decimal expansion of at most 1075 fractional
digits, so fuel 1200 is exact on genuine float values. -/
def fracDigitsCore : Nat → ℚ → List Char
  | 0, _ => []
  | fuel + 1, q =>
      if q = 0 then []
      else
        let q10 := q * 10
        digitChar q10.floor.toNat :: fracDigitsCore fuel (q10 - q10.floor)

/-- Model of Python `str` on a float: sign, integer part, `'.'`, fractional
digits without trailing zeros (`"0"` if none).  Python switches to exponent
notation for very large/small magnitudes and prints the shortest round-trip
decimal; the floats appearing in the claims are unaffected by that
idealisation. -/
def pyFloatStr (q : ℚ) : String :=
  let a : ℚ := |q|
  let ip : Nat := a.floor.toNat
  let ds := fracDigitsCore 1200 (a - a.floor)
  let frac := if ds.isEmpty then ['0'] else ds
  if q < 0 then String.mk ('-' :: decDigits ip ++ '.' :: frac)
  else String.mk (decDigits ip ++ '.' :: frac)

/-! ### The codec (`utils.py`)

`serialize` walks `data.items()` in insertion order and dispatches on
`isinstance` in the written order: `str`, `int`, `float`, `bool`, `dict`,
`list`, `is None`, else `TypeError`.  Since Python's `bool` is a subclass of
`int`, a boolean value satisfies `isinstance(value, int)` and is encoded by
the `int` branch as `{"N": str(value)}` (`str(True) = "True"`); the written
`bool` branch is unreachable.  The match below reproduces the reached
behaviour of the chain. -/

mutual

def serializeValue (key : String) : Py → Except PyErr Py
  | .str s => .ok (.dict [("S", .str s)])
  | .int n => .ok (.dict [("N", .str (pyIntStr n))])
  | .bool b => .ok (.dict [("N", .str (if b then "True" else "False"))])
  | .float q => .ok (.dict [("N", .str (pyFloatStr q))])
  | .dict fs => do
      let sfs ← serializeFields fs
      .ok (.dict [("M", .dict sfs)])
  | .list es => do
      let ses ← serializeList es
      .ok (.dict [("L", .list ses)])
  | .none => .ok (.dict [("NULL", .bool true)])
  | .other t => .error (.unsupportedType t key)

/-- `serialize(data)`: one tagged value per field, fields in order. -/
def serializeFields : List (String × Py) → Except PyErr (List (String × Py))
  | [] => .ok []
  | (key, v) :: rest => do
      let sv ← serializeValue key v
      let srest ← serializeFields rest
      .ok ((key, sv) :: srest)

/-- The `"L"` comprehension: `serialize(v) if isinstance(v, dict) else v`. -/
def serializeList : List Py → Except PyErr (List Py)
  | [] => .ok []
  | v :: rest => do
      let sv ← match v with
        | .dict fs => do
            let sfs ← serializeFields fs
            pure (Py.dict sfs)
        | w => pure w
      let srest ← serializeList rest
      .ok (sv :: srest)

end

/-- Dictionary lookup, first match: Python `value[tag]` / `tag in value`
(a real Python dict has unique keys, so first-match is exact). -/
def lookupTag (tag : String) : List (String × Py) → Option Py
  | [] => Option.none
  | (k, v) :: rest => if k == tag then some v else lookupTag tag rest

theorem sizeOf_lookupTag {tag : String} {fs : List (String × Py)} {v : Py}
    (h : lookupTag tag fs = some v) : sizeOf v < sizeOf fs := by
  induction fs with
  | nil => simp [lookupTag] at h
  | cons p rest ih =>
      obtain ⟨k, w⟩ := p
      by_cases hk : k == tag
      · simp [lookupTag, hk] at h
        subst h
        simp
        omega
      · simp [lookupTag, hk] at h
        have := ih h
        simp
        omega

/-! `deserialize` checks `"S" in value`, `"N" in value`, ... in the written
`elif` order; for a value that is not a dict every path ends in a raised
exception (`in` on a non-iterable raises `TypeError`; on a string it does a
substring test and the subsequent subscript `value[tag]` raises
`TypeError`), modelled uniformly as `.typeErr`.  Likewise a `"N"` payload
that is not a string (`.isdigit()` → `AttributeError`), a `"M"` payload that
is not a dict (`.items()` → `AttributeError`) and a `"L"` payload that is
not a list (Python would iterate other iterables — unreachable from
`serialize` output, never exercised by the claims). -/

mutual

def deserializeValue (key : String) (v : Py) : Except PyErr Py :=
  match v with
  | .dict fs =>
      match lookupTag "S" fs with
      | some p => .ok p
      | Option.none =>
        match lookupTag "N" fs with
        | some p =>
            match p with
            | .str t =>
                if pyIsdigit t then .ok (.int (pyIntOfDigits t))
                else
                  match pyFloat t with
                  | some q => .ok (.float q)
                  | Option.none => .error (.valueError t)
            | _ => .error (.typeErr key)
        | Option.none =>
          match lookupTag "BOOL" fs with
          | some p => .ok p
          | Option.none =>
            match hM : lookupTag "M" fs with
            | some p =>
                match p, hM with
                | .dict inner, _ => do
                    let d ← deserializeFields inner
                    pure (Py.dict d)
                | _, _ => .error (.typeErr key)
            | Option.none =>
              match hL : lookupTag "L" fs with
              | some p =>
                  match p, hL with
                  | .list es, _ => do
                      let d ← deserializeList es
                      pure (Py.list d)
                  | _, _ => .error (.typeErr key)
              | Option.none =>
                match lookupTag "NULL" fs with
                | some _ => .ok Py.none
                | Option.none => .error (.unsupportedTag key)
  | _ => .error (.typeErr key)
termination_by sizeOf v
decreasing_by
  all_goals
    rename_i h
    have hlt := sizeOf_lookupTag h
    simp at hlt ⊢
    omega

/-- `deserialize(data)`: one plain value per field, fields in order. -/
def deserializeFields (fields : List (String × Py)) :
    Except PyErr (List (String × Py)) :=
  match fields with
  | [] => .ok []
  | (key, v) :: rest => do
      let dv ← deserializeValue key v
      let drest ← deserializeFields rest
      .ok ((key, dv) :: drest)
termination_by sizeOf fields

/-- The `"L"` comprehension: `deserialize(v) if isinstance(v, dict) else v`. -/
def deserializeList (elems : List Py) : Except PyErr (List Py) :=
  match elems with
  | [] => .ok []
  | v :: rest => do
      let dv ← match v with
        | .dict fs => do
            let d ← deserializeFields fs
            pure (Py.dict d)
        | w => pure w
      let drest ← deserializeList rest
      .ok (dv :: drest)
termination_by sizeOf elems

end

/-! ### Facts about decimal digit lists -/

theorem digitChar_isDigit {d : Nat} (h : d < 10) : (digitChar d).isDigit = true := by
  interval_cases d <;> decide

theorem digitChar_toNat {d : Nat} (h : d < 10) : (digitChar d).toNat = 48 + d := by
  interval_cases d <;> decide

theorem isDigit_toNat {c : Char} (h : c.isDigit = true) :
    48 ≤ c.toNat ∧ c.toNat ≤ 57 := by
  simp [Char.isDigit] at h
  obtain ⟨h1, h2⟩ := h
  exact ⟨h1, h2⟩

theorem digitsVal_append_singleton (l : List Char) (c : Char) :
    digitsVal (l ++ [c]) = 10 * digitsVal l + (c.toNat - 48) := by
  induction l with
  | nil => simp [digitsVal]
  | cons a l ih =>
      show digitsVal (a :: (l ++ [c])) = _
      simp only [digitsVal, ih, List.length_append, List.length_cons, List.length_nil]
      ring

theorem digitsVal_lt (l : List Char) (h : ∀ c ∈ l, c.isDigit = true) :
    digitsVal l < 10 ^ l.length := by
  induction l with
  | nil => simp [digitsVal]
  | cons a l ih =>
      have ha := isDigit_toNat (h a (by simp))
      have hl := ih (fun c hc => h c (by simp [hc]))
      simp only [digitsVal, List.length_cons, pow_succ]
      have h9 : a.toNat - 48 ≤ 9 := by omega
      calc (a.toNat - 48) * 10 ^ l.length + digitsVal l
          < (a.toNat - 48) * 10 ^ l.length + 10 ^ l.length := by omega
        _ = (a.toNat - 48 + 1) * 10 ^ l.length := by ring
        _ ≤ 10 * 10 ^ l.length := Nat.mul_le_mul_right _ (by omega)
        _ = 10 ^ l.length * 10 := by ring

theorem digitsVal_replicate_zero (k : Nat) (l : List Char) :
    digitsVal (List.replicate k '0' ++ l) = digitsVal l := by
  induction k with
  | zero => simp
  | succ k ih =>
      show digitsVal ('0' :: (List.replicate k '0' ++ l)) = digitsVal l
      simp only [digitsVal, ih]
      have h0 : '0'.toNat - 48 = 0 := rfl
      rw [h0]
      ring

theorem decDigitsCore_spec :
    ∀ fuel n, 0 < fuel → n < 10 ^ fuel →
      digitsVal (decDigitsCore fuel n) = n ∧
      (∀ c ∈ decDigitsCore fuel n, c.isDigit = true) := by
  intro fuel
  induction fuel with
  | zero => omega
  | succ fuel ih =>
      intro n _ hn
      by_cases h10 : n < 10
      · simp only [decDigitsCore, if_pos h10, digitsVal]
        refine ⟨?_, ?_⟩
        · simp only [digitsVal, digitChar_toNat h10, List.length_nil, pow_zero]
          omega
        · intro c hc
          simp at hc
          subst hc
          exact digitChar_isDigit h10
      · have hfuel : 0 < fuel := by
          by_contra hf
          have : fuel = 0 := by omega
          subst this
          simp at hn
          omega
        have hdiv : n / 10 < 10 ^ fuel := by
          rw [Nat.div_lt_iff_lt_mul (by norm_num)]
          calc n < 10 ^ (fuel + 1) := hn
            _ = 10 ^ fuel * 10 := by ring
        obtain ⟨ihv, ihd⟩ := ih (n / 10) hfuel hdiv
        simp only [decDigitsCore, if_neg h10]
        refine ⟨?_, ?_⟩
        · rw [digitsVal_append_singleton, ihv, digitChar_toNat (Nat.mod_lt _ (by norm_num))]
          omega
        · intro c hc
          simp at hc
          rcases hc with hc | hc
          · exact ihd c hc
          · subst hc
            exact digitChar_isDigit (Nat.mod_lt _ (by norm_num))

theorem decDigitsCore_length :
    ∀ fuel n w, 0 < w → n < 10 ^ w → n < 10 ^ fuel → 0 < fuel →
      (decDigitsCore fuel n).length ≤ w := by
  intro fuel
  induction fuel with
  | zero => omega
  | succ fuel ih =>
      intro n w hw hnw hnf _
      by_cases h10 : n < 10
      · simp [decDigitsCore, if_pos h10]
        omega
      · have hw2 : 2 ≤ w := by
          by_contra hc
          have : w = 1 := by omega
          subst this
          simp at hnw
          omega
        have hfuel : 0 < fuel := by
          by_contra hf
          have : fuel = 0 := by omega
          subst this
          simp at hnf
          omega
        have hdivw : n / 10 < 10 ^ (w - 1) := by
          rw [Nat.div_lt_iff_lt_mul (by norm_num)]
          calc n < 10 ^ w := hnw
            _ = 10 ^ (w - 1) * 10 := by
                rw [← pow_succ]
                congr 1
                omega
        have hdivf : n / 10 < 10 ^ fuel := by
          rw [Nat.div_lt_iff_lt_mul (by norm_num)]
          calc n < 10 ^ (fuel + 1) := hnf
            _ = 10 ^ fuel * 10 := by ring
        have := ih (n / 10) (w - 1) (by omega) hdivw hdivf hfuel
        simp only [decDigitsCore, if_neg h10, List.length_append, List.length_cons,
          List.length_nil]
        omega

theorem decDigits_val {n : Nat} : digitsVal (decDigits n) = n :=
  (decDigitsCore_spec (n + 1) n (by omega) (by
    calc n < n + 1 := by omega
      _ ≤ 10 ^ (n + 1) := Nat.le_of_lt (Nat.lt_pow_self (by norm_num) _))).1

theorem decDigits_isDigit {n : Nat} : ∀ c ∈ decDigits n, c.isDigit = true :=
  (decDigitsCore_spec (n + 1) n (by omega) (by
    calc n < n + 1 := by omega
      _ ≤ 10 ^ (n + 1) := Nat.le_of_lt (Nat.lt_pow_self (by norm_num) _))).2

theorem decDigits_length {n w : Nat} (hw : 0 < w) (hn : n < 10 ^ w) :
    (decDigits n).length ≤ w :=
  decDigitsCore_length (n + 1) n w hw hn
    (by
      calc n < n + 1 := by omega
        _ ≤ 10 ^ (n + 1) := Nat.le_of_lt (Nat.lt_pow_self (by norm_num) _))
    (by omega)

/-- Lexicographic order on equal-length lists of decimal digit characters is
numeric order of their values. -/
theorem lex_iff_digitsVal :
    ∀ (l₁ l₂ : List Char), l₁.length = l₂.length →
      (∀ c ∈ l₁, c.isDigit = true) → (∀ c ∈ l₂, c.isDigit = true) →
      (List.Lex (· < ·) l₁ l₂ ↔ digitsVal l₁ < digitsVal l₂) := by
  intro l₁
  induction l₁ with
  | nil =>
      intro l₂ hlen _ _
      have : l₂ = [] := by
        cases l₂ with
        | nil => rfl
        | cons b bs => simp at hlen
      subst this
      simp [digitsVal]
  | cons a l₁ ih =>
      intro l₂ hlen h₁ h₂
      cases l₂ with
      | nil => simp at hlen
      | cons b l₂ =>
          have hlen' : l₁.length = l₂.length := by simpa using hlen
          have ha := isDigit_toNat (h₁ a (by simp))
          have hb := isDigit_toNat (h₂ b (by simp))
          have hv₁ : digitsVal l₁ < 10 ^ l₁.length :=
            digitsVal_lt l₁ (fun c hc => h₁ c (by simp [hc]))
          have hv₂ : digitsVal l₂ < 10 ^ l₂.length :=
            digitsVal_lt l₂ (fun c hc => h₂ c (by simp [hc]))
          have hiff := ih l₂ hlen' (fun c hc => h₁ c (by simp [hc]))
            (fun c hc => h₂ c (by simp [hc]))
          have hchar : (a < b) ↔ a.toNat < b.toNat := Iff.rfl
          simp only [digitsVal, hlen']
          rcases lt_trichotomy a b with hab | hab | hab
          · constructor
            · intro _
              have hd : a.toNat - 48 < b.toNat - 48 := by
                have := hchar.mp hab
                omega
              calc (a.toNat - 48) * 10 ^ l₂.length + digitsVal l₁
                  < (a.toNat - 48) * 10 ^ l₂.length + 10 ^ l₂.length := by
                    rw [← hlen']; omega
                _ = (a.toNat - 48 + 1) * 10 ^ l₂.length := by ring
                _ ≤ (b.toNat - 48) * 10 ^ l₂.length :=
                    Nat.mul_le_mul_right _ (by omega)
                _ ≤ (b.toNat - 48) * 10 ^ l₂.length + digitsVal l₂ := by omega
            · intro _
              exact List.Lex.rel hab
          · subst hab
            constructor
            · intro hlex
              have htail : List.Lex (· < ·) l₁ l₂ := (List.Lex.cons_iff).mp hlex
              have := hiff.mp htail
              omega
            · intro hval
              have htail : digitsVal l₁ < digitsVal l₂ := by omega
              exact List.Lex.cons (hiff.mpr htail)
          · constructor
            · intro hlex
              cases hlex with
              | cons h => exact absurd hab (lt_irrefl _)
              | rel h => exact absurd hab (lt_asymm h)
            · intro hval
              have hd : b.toNat - 48 < a.toNat - 48 := by
                have : b.toNat < a.toNat := hab
                omega
              have hgt : (b.toNat - 48) * 10 ^ l₂.length + digitsVal l₂
                  < (a.toNat - 48) * 10 ^ l₂.length + digitsVal l₁ := by
                calc (b.toNat - 48) * 10 ^ l₂.length + digitsVal l₂
                    < (b.toNat - 48) * 10 ^ l₂.length + 10 ^ l₂.length := by omega
                  _ = (b.toNat - 48 + 1) * 10 ^ l₂.length := by ring
                  _ ≤ (a.toNat - 48) * 10 ^ l₂.length :=
                      Nat.mul_le_mul_right _ (by omega)
                  _ ≤ (a.toNat - 48) * 10 ^ l₂.length + digitsVal l₁ := by omega
              exact absurd hval (lt_asymm hgt)

/-! ### Row keys (`base.py`, `_to_row_key`)

`_to_row_key(idx)` is `f"{idx:010}"`: decimal digits zero-filled to total
width 10, the fill coming after the sign for negative numbers, and no
truncation when the rendering is already wider. -/

def to_row_key (idx : Int) : String :=
  if idx < 0 then
    String.mk ('-' :: (List.replicate (9 - (decDigits idx.natAbs).length) '0'
      ++ decDigits idx.natAbs))
  else
    String.mk (List.replicate (10 - (decDigits idx.natAbs).length) '0'
      ++ decDigits idx.natAbs)

/-- The padded digit list behind `to_row_key` on a non-negative index. -/
def padKey (n : Nat) : List Char :=
  List.replicate (10 - (decDigits n).length) '0' ++ decDigits n

theorem to_row_key_ofNat (n : Nat) : to_row_key (n : Int) = String.mk (padKey n) := by
  simp [to_row_key, padKey]

theorem padKey_length {n : Nat} (hn : n < 10 ^ 10) : (padKey n).length = 10 := by
  have hle := decDigits_length (by norm_num) hn
  simp [padKey]
  omega

theorem padKey_isDigit {n : Nat} : ∀ c ∈ padKey n, c.isDigit = true := by
  intro c hc
  simp [padKey] at hc
  rcases hc with hc | hc
  · rcases hc with ⟨_, rfl⟩
    decide
  · exact decDigits_isDigit c hc

theorem padKey_val (n : Nat) : digitsVal (padKey n) = n := by
  simp [padKey, digitsVal_replicate_zero, decDigits_val]

/-- Shared helper: on `[0, 10^10)` the row keys are strictly increasing in
the index, under the string order. -/
theorem to_row_key_strictMono {i j : Int} (h0 : 0 ≤ i) (hij : i < j)
    (hj : j < 10 ^ 10) : to_row_key i < to_row_key j := by
  obtain ⟨m, rfl⟩ := Int.eq_ofNat_of_zero_le h0
  obtain ⟨n, rfl⟩ := Int.eq_ofNat_of_zero_le (by omega : (0 : Int) ≤ j)
  have hmn : m < n := by exact_mod_cast hij
  have hn10 : n < 10 ^ 10 := by exact_mod_cast hj
  rw [to_row_key_ofNat, to_row_key_ofNat]
  rw [String.lt_iff_toList_lt]
  show List.Lex (· < ·) (padKey m) (padKey n)
  rw [lex_iff_digitsVal (padKey m) (padKey n)
    (by rw [padKey_length (by omega), padKey_length hn10])
    padKey_isDigit padKey_isDigit]
  rw [padKey_val, padKey_val]
  exact hmn

theorem to_row_key_injOn {i j : Int} (h0 : 0 ≤ i) (h0' : 0 ≤ j)
    (hi : i < 10 ^ 10) (hj : j < 10 ^ 10)
    (heq : to_row_key i = to_row_key j) : i = j := by
  rcases lt_trichotomy i j with h | h | h
  · exact absurd heq (ne_of_lt (to_row_key_strictMono h0 h hj))
  · exact h
  · exact absurd heq.symm (ne_of_lt (to_row_key_strictMono h0' h hi))

/-! ### The DynamoDB table and the adapter (`base.py`)

The external store is modelled as a list of items; `query` returns a
partition's items ordered by sort key (`RowKey`) ascending, `put_item`
upserts by composite key `(partition key, RowKey)`, `delete_item` removes at
most the item with the given composite key and raises nothing when it is
absent — the contract DynamoDB provides and the spec assumes. -/

/-- One table row: partition key, row key, and the `"msg"` attribute holding
the serialized message dictionary. -/
structure Item where
  pk : String
  rk : String
  msg : List (String × Py)

abbrev Store := List Item

/-- Ordered insertion by `RowKey`. -/
def insertByRk (it : Item) : List Item → List Item
  | [] => [it]
  | x :: xs => if it.rk ≤ x.rk then it :: x :: xs else x :: insertByRk it xs

/-- Sort by `RowKey` ascending (the store-native sort-key order). -/
def sortByRk : List Item → List Item
  | [] => []
  | x :: xs => insertByRk x (sortByRk xs)

/-- `query(KeyConditionExpression=Key(pk).eq(key))`: the partition's items,
ordered by `RowKey` ascending. -/
def query (st : Store) (key : String) : List Item :=
  sortByRk (st.filter (fun it => it.pk == key))

/-- `delete_item(Key={pk: key, "RowKey": rk})`: removes the item with that
composite key if present; no error when absent. -/
def delete_item (st : Store) (key rk : String) : Store :=
  st.filter (fun it => !(it.pk == key && it.rk == rk))

/-- `put_item(Item=...)`: upsert by composite key. -/
def put_item (st : Store) (it : Item) : Store :=
  delete_item st it.pk it.rk ++ [it]

/-- Modelled from the spec: `ChatMessage` (defined in `llama_index.core`,
code of this repository outside the files under verification) is "an ordered
record with at least a role and content field plus arbitrary auxiliary
fields — treated as an opaque PlainValue object by the codec".
`message.dict()` is the record's field mapping, and
`ChatMessage.parse_obj` rebuilds an equal message from that mapping. -/
structure ChatMessage where
  fields : List (String × Py)

/-- `get_messages`: query the partition, deserialize each `"msg"` payload,
`parse_obj` the result, in store order. -/
def get_messages (st : Store) (key : String) : Except PyErr (List ChatMessage) :=
  (query st key).mapM (fun it => do
    let d ← deserializeFields it.msg
    pure (ChatMessage.mk d))

/-- `set_messages`: query the partition, batch-delete every returned item by
its `RowKey`, then put one item per message at `RowKey = _to_row_key(idx)`
with payload `serialize(message.dict())`, in enumeration order. -/
def set_messages (st : Store) (key : String) (msgs : List ChatMessage) :
    Except PyErr Store := do
  let existing := query st key
  let deleted := existing.foldl (fun s it => delete_item s key it.rk) st
  msgs.enum.foldlM (fun s p => do
    let payload ← serializeFields p.2.fields
    pure (put_item s ⟨key, to_row_key (p.1 : Int), payload⟩)) deleted

/-- `add_message`: read the current count; an explicit index greater than it
raises `ValueError(f"Index out of bounds: {idx}")`; an omitted index
defaults to the count; then a single `put_item` (upsert). -/
def add_message (st : Store) (key : String) (message : ChatMessage)
    (idx : Option Int) : Except PyErr Store := do
  let msgs ← get_messages st key
  let next_index : Int := msgs.length
  match idx with
  | some i =>
      if i > next_index then
        Except.error (.indexOutOfBounds i)
      else do
        let payload ← serializeFields message.fields
        pure (put_item st ⟨key, to_row_key i, payload⟩)
  | Option.none => do
      let payload ← serializeFields message.fields
      pure (put_item st ⟨key, to_row_key next_index, payload⟩)

/-- `delete_message`: a single `delete_item` at `_to_row_key(idx)`. -/
def delete_message (st : Store) (key : String) (idx : Int) : Store :=
  delete_item st key (to_row_key idx)

/-- `delete_last_message`: reads the history, deletes at
`_to_row_key(len - 1)`. -/
def delete_last_message (st : Store) (key : String) : Except PyErr Store := do
  let msgs ← get_messages st key
  pure (delete_item st key (to_row_key ((msgs.length : Int) - 1)))

/-! ### Values the codec round-trips

`goodValue v` holds exactly on the values whose encode/decode round trip
returns `v` itself: strings, non-negative integers (negative ones come back
as floats — `"-3".isdigit()` is false), floats whose decimal rendering
re-parses to the same value, `None`, dictionaries of such values, and lists
whose dictionary elements are good (non-dictionary list elements pass
through both directions untouched, so they are unrestricted).  Booleans are
excluded: they encode through the `int` branch as `{"N": "True"}`, which
`deserialize` cannot parse. -/

mutual

def goodValue : Py → Bool
  | .str _ => true
  | .int n => decide (0 ≤ n)
  | .bool _ => false
  | .float q => pyFloat (pyFloatStr q) == some q
  | .none => true
  | .dict fs => goodFields fs
  | .list es => goodElems es
  | .other _ => false

def goodFields : List (String × Py) → Bool
  | [] => true
  | (_, v) :: rest => goodValue v && goodFields rest

def goodElems : List Py → Bool
  | [] => true
  | .dict fs :: rest => goodFields fs && goodElems rest
  | _ :: rest => goodElems rest

end

theorem ok_bind {α β : Type} (a : α) (f : α → Except PyErr β) :
    (Except.ok a : Except PyErr α) >>= f = f a := rfl

theorem error_bind {α β : Type} (e : PyErr) (f : α → Except PyErr β) :
    (Except.error e : Except PyErr α) >>= f = Except.error e := rfl

theorem epure_bind {α β : Type} (a : α) (f : α → Except PyErr β) :
    (pure a : Except PyErr α) >>= f = f a := rfl

theorem decDigits_ne_nil {n : Nat} : decDigits n ≠ [] := by
  unfold decDigits decDigitsCore
  by_cases h : n < 10 <;> simp [h]

theorem pyIntStr_ofNat (n : Nat) : pyIntStr (n : Int) = String.mk (decDigits n) := by
  simp [pyIntStr]

theorem pyIsdigit_mk_decDigits (n : Nat) :
    pyIsdigit (String.mk (decDigits n)) = true := by
  simp [pyIsdigit]
  refine ⟨decDigits_ne_nil, ?_⟩
  intro c hc
  exact decDigits_isDigit c hc

theorem pyIntOfDigits_mk_decDigits (n : Nat) :
    pyIntOfDigits (String.mk (decDigits n)) = (n : Int) := by
  simp [pyIntOfDigits, decDigits_val]

theorem pyIsdigit_pyFloatStr (q : ℚ) : pyIsdigit (pyFloatStr q) = false := by
  have hdot : ('.' : Char).isDigit = false := rfl
  by_cases h : q < 0 <;>
    simp [pyFloatStr, pyIsdigit, h, List.all_append, hdot]

mutual

/-- Round trip on a single field value. -/
theorem roundtrip_value (key : String) (v : Py) (h : goodValue v = true) :
    ∃ tv, serializeValue key v = .ok tv ∧ deserializeValue key tv = .ok v := by
  cases v with
  | str s =>
      exact ⟨_, rfl, by simp [deserializeValue, lookupTag]⟩
  | int n =>
      have hn : 0 ≤ n := by simpa [goodValue] using h
      obtain ⟨m, rfl⟩ := Int.eq_ofNat_of_zero_le hn
      refine ⟨_, rfl, ?_⟩
      simp [serializeValue, deserializeValue, lookupTag, pyIntStr_ofNat,
        pyIsdigit_mk_decDigits, pyIntOfDigits_mk_decDigits]
  | bool b => simp [goodValue] at h
  | float q =>
      have hq : pyFloat (pyFloatStr q) = some q := by
        simpa [goodValue] using h
      refine ⟨_, rfl, ?_⟩
      simp [serializeValue, deserializeValue, lookupTag, pyIsdigit_pyFloatStr, hq]
  | none =>
      exact ⟨_, rfl, by simp [deserializeValue, lookupTag]⟩
  | dict fs =>
      have hfs : goodFields fs = true := by simpa [goodValue] using h
      obtain ⟨tfs, hs, hd⟩ := roundtrip_fields fs hfs
      refine ⟨.dict [("M", .dict tfs)], ?_, ?_⟩
      · simp [serializeValue, hs, ok_bind]
      · simp [deserializeValue, lookupTag, hd, ok_bind]
  | list es =>
      have hes : goodElems es = true := by simpa [goodValue] using h
      obtain ⟨tes, hs, hd⟩ := roundtrip_elems es hes
      refine ⟨.dict [("L", .list tes)], ?_, ?_⟩
      · simp [serializeValue, hs, ok_bind]
      · simp [deserializeValue, lookupTag, hd, ok_bind]
  | other t => simp [goodValue] at h
termination_by sizeOf v

/-- Round trip on a whole dictionary, fieldwise. -/
theorem roundtrip_fields (fs : List (String × Py)) (h : goodFields fs = true) :
    ∃ tfs, serializeFields fs = .ok tfs ∧ deserializeFields tfs = .ok fs := by
  match fs, h with
  | [], _ => exact ⟨[], rfl, by simp [deserializeFields]⟩
  | (k, v) :: rest, h =>
      have hv : goodValue v = true := by
        simp [goodFields, Bool.and_eq_true] at h
        exact h.1
      have hrest : goodFields rest = true := by
        simp [goodFields, Bool.and_eq_true] at h
        exact h.2
      obtain ⟨tv, hsv, hdv⟩ := roundtrip_value k v hv
      obtain ⟨trest, hsrest, hdrest⟩ := roundtrip_fields rest hrest
      refine ⟨(k, tv) :: trest, ?_, ?_⟩
      · simp [serializeFields, hsv, hsrest, ok_bind]
      · simp [deserializeFields, hdv, hdrest, ok_bind]
termination_by sizeOf fs

/-- Round trip on the elements of a list value: dictionary elements recurse,
anything else passes through unencoded both ways. -/
theorem roundtrip_elems (es : List Py) (h : goodElems es = true) :
    ∃ tes, serializeList es = .ok tes ∧ deserializeList tes = .ok es := by
  match es, h with
  | [], _ => exact ⟨[], rfl, by simp [deserializeList]⟩
  | .dict fs :: rest, h =>
      have hfs : goodFields fs = true := by
        simp [goodElems, Bool.and_eq_true] at h
        exact h.1
      have hrest : goodElems rest = true := by
        simp [goodElems, Bool.and_eq_true] at h
        exact h.2
      obtain ⟨tfs, hsfs, hdfs⟩ := roundtrip_fields fs hfs
      obtain ⟨trest, hsrest, hdrest⟩ := roundtrip_elems rest hrest
      refine ⟨.dict tfs :: trest, ?_, ?_⟩
      · simp [serializeList, hsfs, hsrest, ok_bind]
      · simp [deserializeList, hdfs, hdrest, ok_bind]
  | .str s :: rest, h =>
      have hrest : goodElems rest = true := by simpa [goodElems] using h
      obtain ⟨trest, hsrest, hdrest⟩ := roundtrip_elems rest hrest
      exact ⟨.str s :: trest, by simp [serializeList, hsrest, ok_bind],
        by simp [deserializeList, hdrest, ok_bind]⟩
  | .int n :: rest, h =>
      have hrest : goodElems rest = true := by simpa [goodElems] using h
      obtain ⟨trest, hsrest, hdrest⟩ := roundtrip_elems rest hrest
      exact ⟨.int n :: trest, by simp [serializeList, hsrest, ok_bind],
        by simp [deserializeList, hdrest, ok_bind]⟩
  | .bool b :: rest, h =>
      have hrest : goodElems rest = true := by simpa [goodElems] using h
      obtain ⟨trest, hsrest, hdrest⟩ := roundtrip_elems rest hrest
      exact ⟨.bool b :: trest, by simp [serializeList, hsrest, ok_bind],
        by simp [deserializeList, hdrest, ok_bind]⟩
  | .float q :: rest, h =>
      have hrest : goodElems rest = true := by simpa [goodElems] using h
      obtain ⟨trest, hsrest, hdrest⟩ := roundtrip_elems rest hrest
      exact ⟨.float q :: trest, by simp [serializeList, hsrest, ok_bind],
        by simp [deserializeList, hdrest, ok_bind]⟩
  | .none :: rest, h =>
      have hrest : goodElems rest = true := by simpa [goodElems] using h
      obtain ⟨trest, hsrest, hdrest⟩ := roundtrip_elems rest hrest
      exact ⟨.none :: trest, by simp [serializeList, hsrest, ok_bind],
        by simp [deserializeList, hdrest, ok_bind]⟩
  | .list es' :: rest, h =>
      have hrest : goodElems rest = true := by simpa [goodElems] using h
      obtain ⟨trest, hsrest, hdrest⟩ := roundtrip_elems rest hrest
      exact ⟨.list es' :: trest, by simp [serializeList, hsrest, ok_bind],
        by simp [deserializeList, hdrest, ok_bind]⟩
  | .other t :: rest, h =>
      have hrest : goodElems rest = true := by simpa [goodElems] using h
      obtain ⟨trest, hsrest, hdrest⟩ := roundtrip_elems rest hrest
      exact ⟨.other t :: trest, by simp [serializeList, hsrest, ok_bind],
        by simp [deserializeList, hdrest, ok_bind]⟩
termination_by sizeOf es

end

/-! ### Claims -/

/-- C1.  The claim states `deserialize(serialize(v)) == v` for every
PlainValue built from strings, ints, floats, bools, null and nested objects.
It fails on booleans: `isinstance(True, int)` holds in Python, so
`serialize` encodes `{"flag": True}` as `{"flag": {"N": "True"}}`, and
`deserialize` then calls `float("True")`, which raises `ValueError` — the
round trip raises instead of returning the input. -/
theorem bool_roundtrip_fails :
    (serializeFields [("flag", .bool true)]).bind deserializeFields
        = .error (.valueError "True")
    ∧ (serializeFields [("flag", .bool true)]).bind deserializeFields
        ≠ .ok [("flag", .bool true)] := by
  constructor
  · simp [serializeFields, serializeValue, deserializeFields, deserializeValue,
      lookupTag, pyIsdigit, pyFloat, ok_bind, error_bind, Except.bind]
  · intro hcontra
    have h1 : (serializeFields [("flag", .bool true)]).bind deserializeFields
        = .error (.valueError "True") := by
      simp [serializeFields, serializeValue, deserializeFields, deserializeValue,
        lookupTag, pyIsdigit, pyFloat, ok_bind, error_bind, Except.bind]
    rw [h1] at hcontra
    exact Except.noConfusion hcontra

/-- C2.  The claim states booleans are encoded with the `BOOL` tag, the
boolean case being decided before the numeric case.  The code checks
`isinstance(value, int)` first and Python's `bool` is a subclass of `int`,
so `True` is encoded as `{"N": "True"}` — the `BOOL` branch is dead code. -/
theorem bool_encoded_as_number :
    serializeFields [("k", .bool true)]
        = .ok [("k", .dict [("N", .str "True")])]
    ∧ serializeFields [("k", .bool true)]
        ≠ .ok [("k", .dict [("BOOL", .bool true)])] := by
  constructor
  · rfl
  · intro hcontra
    simp [serializeFields, serializeValue, ok_bind] at hcontra

/-- C3, counterexample.  The claim says a `{"N": t}` value decodes to an
integer whenever `t` is the decimal representation of an integer, including
negative ones.  `"-3".isdigit()` is false, so `deserialize` parses `"-3"`
with `float` and returns the float `-3.0`, not the integer `-3`. -/
theorem negative_int_decodes_as_float :
    deserializeFields [("k", .dict [("N", .str "-3")])]
        = .ok [("k", .float (-3))]
    ∧ deserializeFields [("k", .dict [("N", .str "-3")])]
        ≠ .ok [("k", .int (-3))] := by
  constructor
  · simp [deserializeFields, deserializeValue, lookupTag, pyIsdigit, pyFloat,
      digitsVal, fracVal, ok_bind]
  · intro hcontra
    have h1 : deserializeFields [("k", .dict [("N", .str "-3")])]
        = .ok [("k", .float (-3))] := by
      simp [deserializeFields, deserializeValue, lookupTag, pyIsdigit, pyFloat,
        digitsVal, fracVal, ok_bind]
    rw [h1] at hcontra
    simp at hcontra

/-- C3, amended.  A `{"N": t}` value decodes to the integer `int(t)` exactly
when `t` is a nonempty string of decimal digits (`str.isdigit`); any other
text — negative integer texts included — goes to the `float` parser, which
yields a float on success and raises `ValueError` otherwise. -/
theorem number_tag_digit_check (k t : String) :
    (pyIsdigit t = true →
      deserializeValue k (.dict [("N", .str t)]) = .ok (.int (pyIntOfDigits t)))
    ∧ (pyIsdigit t = false → ∀ q : ℚ, pyFloat t = some q →
      deserializeValue k (.dict [("N", .str t)]) = .ok (.float q))
    ∧ (pyIsdigit t = false → pyFloat t = Option.none →
      deserializeValue k (.dict [("N", .str t)]) = .error (.valueError t)) := by
  refine ⟨?_, ?_, ?_⟩
  · intro hd
    simp [deserializeValue, lookupTag, hd]
  · intro hd q hq
    simp [deserializeValue, lookupTag, hd, hq]
  · intro hd hq
    simp [deserializeValue, lookupTag, hd, hq]

/-- Witness for `number_tag_digit_check` at `t = "42"` and `t = "2.5"`. -/
theorem number_tag_digit_check_witness :
    (pyIsdigit "42" = true
      ∧ deserializeValue "k" (.dict [("N", .str "42")]) = .ok (.int (pyIntOfDigits "42")))
    ∧ (pyIsdigit "2.5" = false ∧ pyFloat "2.5" = some (5 / 2 : ℚ)
      ∧ deserializeValue "k" (.dict [("N", .str "2.5")]) = .ok (.float (5 / 2))) :=
  ⟨⟨by decide, (number_tag_digit_check "k" "42").1 (by decide)⟩,
   ⟨by decide, by simp [pyFloat, digitsVal, fracVal]; norm_num,
    (number_tag_digit_check "k" "2.5").2.1 (by decide) (5 / 2)
      (by simp [pyFloat, digitsVal, fracVal]; norm_num)⟩⟩

/-- C4.  A field whose value has no branch in `serialize` (modelled by
`Py.other`) makes `serialize` raise
`TypeError(f"Unsupported data type: {type(value)} for key {key}")` — an
error naming the offending field key and the value's runtime type — provided
the fields before it serialize; no result is returned. -/
theorem unsupported_type_raises (pre : List (String × Py)) (k t : String)
    (rest : List (String × Py))
    (h : ∀ p ∈ pre, ∃ w, serializeValue p.1 p.2 = .ok w) :
    serializeFields (pre ++ (k, .other t) :: rest)
      = .error (.unsupportedType t k) := by
  induction pre with
  | nil =>
      simp [serializeFields, serializeValue, error_bind]
  | cons p pre ih =>
      obtain ⟨kp, vp⟩ := p
      obtain ⟨w, hw⟩ := h (kp, vp) (by simp)
      have hrest := ih (fun q hq => h q (by simp [hq]))
      show serializeFields ((kp, vp) :: (pre ++ (k, .other t) :: rest)) = _
      simp [serializeFields, hw, hrest, ok_bind, error_bind]

/-- Witness for `unsupported_type_raises`: a two-field dict whose second
field holds an unsupported value. -/
theorem unsupported_type_raises_witness :
    (∀ p ∈ [("a", Py.str "x")], ∃ w, serializeValue p.1 p.2 = .ok w)
    ∧ serializeFields ([("a", Py.str "x")] ++ ("blob", .other "bytes") :: [])
        = .error (.unsupportedType "bytes" "blob") :=
  ⟨fun p hp => ⟨.dict [("S", .str "x")], by
      simp at hp
      subst hp
      rfl⟩,
   unsupported_type_raises [("a", Py.str "x")] "blob" "bytes" []
     (fun p hp => ⟨.dict [("S", .str "x")], by
        simp at hp
        subst hp
        rfl⟩)⟩

/-- C6.  For indices `0 ≤ i < j < 10^10` the row keys are 10-character
zero-padded decimal strings whose lexicographic string order agrees with the
numeric order of the indices: `to_row_key i < to_row_key j`. -/
theorem row_key_order_matches_index_order (i j : Int) (h0 : 0 ≤ i)
    (hij : i < j) (hj : j < 10 ^ 10) : to_row_key i < to_row_key j :=
  to_row_key_strictMono h0 hij hj

/-- Witness for `row_key_order_matches_index_order` at `i = 3`, `j = 7`. -/
theorem row_key_order_witness :
    (0 : Int) ≤ 3 ∧ (3 : Int) < 7 ∧ (7 : Int) < 10 ^ 10
    ∧ to_row_key 3 < to_row_key 7 :=
  ⟨by decide, by decide, by decide,
   row_key_order_matches_index_order 3 7 (by decide) (by decide) (by decide)⟩

theorem insertByRk_ne_nil (it : Item) (l : List Item) : insertByRk it l ≠ [] := by
  cases l with
  | nil => simp [insertByRk]
  | cons x xs =>
      simp only [insertByRk]
      split <;> simp

theorem sortByRk_eq_nil {l : List Item} (h : sortByRk l = []) : l = [] := by
  cases l with
  | nil => rfl
  | cons x xs => exact absurd h (insertByRk_ne_nil x (sortByRk xs))

theorem no_items_of_query_nil {st : Store} {key : String}
    (h : query st key = []) : ∀ it ∈ st, it.pk ≠ key := by
  intro it hit hpk
  have hfil : st.filter (fun it => it.pk == key) = [] := sortByRk_eq_nil h
  have hmem : it ∈ st.filter (fun it => it.pk == key) := by
    rw [List.mem_filter]
    exact ⟨hit, by simp [hpk]⟩
  rw [hfil] at hmem
  simp at hmem

theorem delete_item_of_no_pk {st : Store} {key : String}
    (hnone : ∀ it ∈ st, it.pk ≠ key) (rk : String) :
    delete_item st key rk = st := by
  unfold delete_item
  apply List.filter_eq_self.mpr
  intro it hit
  simp [hnone it hit]

/-- C9.  `delete_message(key, idx)` issues one `delete_item` at the
composite key `(key, _to_row_key(idx))`: the result is a sublist of the
store (every surviving item keeps its position and its original `RowKey`,
so no renumbering occurs), and an item survives exactly when it is not the
one addressed — items of other keys and other indices are untouched.  The
operation is total: deleting an absent item raises nothing. -/
theorem delete_message_frame (st : Store) (key : String) (idx : Int) :
    List.Sublist (delete_message st key idx) st
    ∧ ∀ it : Item, it ∈ delete_message st key idx ↔
        (it ∈ st ∧ ¬(it.pk = key ∧ it.rk = to_row_key idx)) := by
  constructor
  · exact List.filter_sublist _
  · intro it
    simp [delete_message, delete_item, List.mem_filter, not_and]
    tauto

/-- Witness for `delete_message_frame` on a two-item history. -/
theorem delete_message_frame_witness :
    List.Sublist
      (delete_message
        [Item.mk "conv" (to_row_key 0) [], Item.mk "conv" (to_row_key 1) []]
        "conv" 0)
      [Item.mk "conv" (to_row_key 0) [], Item.mk "conv" (to_row_key 1) []]
    ∧ ∀ it : Item,
        it ∈ delete_message
          [Item.mk "conv" (to_row_key 0) [], Item.mk "conv" (to_row_key 1) []]
          "conv" 0
        ↔ (it ∈ [Item.mk "conv" (to_row_key 0) [],
              Item.mk "conv" (to_row_key 1) []]
            ∧ ¬(it.pk = "conv" ∧ it.rk = to_row_key 0)) :=
  delete_message_frame
    [Item.mk "conv" (to_row_key 0) [], Item.mk "conv" (to_row_key 1) []]
    "conv" 0

/-- C10.  On a key with empty history, `delete_last_message` computes
`_to_row_key(0 - 1) = "-000000001"`, issues a single delete for that
non-existent row key, raises nothing, and leaves the store unchanged. -/
theorem delete_last_on_empty (st : Store) (key : String)
    (h : query st key = []) :
    delete_last_message st key = .ok (delete_item st key (to_row_key (-1)))
    ∧ to_row_key (-1) = "-000000001"
    ∧ delete_item st key (to_row_key (-1)) = st := by
  have hget : get_messages st key = .ok [] := by
    unfold get_messages
    rw [h]
    rfl
  refine ⟨?_, by decide, ?_⟩
  · show (do
        let msgs ← get_messages st key
        pure (delete_item st key (to_row_key ((msgs.length : Int) - 1))))
      = Except.ok (delete_item st key (to_row_key (-1)))
    rw [hget, ok_bind]
    norm_num
    rfl
  · exact delete_item_of_no_pk (no_items_of_query_nil h) _

/-- Witness for `delete_last_on_empty`: a store holding one item under a
different key; the history of `"conv"` is empty. -/
theorem delete_last_on_empty_witness :
    query [Item.mk "other" "0000000000" []] "conv" = []
    ∧ (delete_last_message [Item.mk "other" "0000000000" []] "conv"
          = .ok (delete_item [Item.mk "other" "0000000000" []] "conv"
              (to_row_key (-1)))
        ∧ to_row_key (-1) = "-000000001"
        ∧ delete_item [Item.mk "other" "0000000000" []] "conv"
            (to_row_key (-1)) = [Item.mk "other" "0000000000" []]) :=
  ⟨rfl, delete_last_on_empty _ "conv" rfl⟩

mutual

/-- The only exception `serialize` raises is the unsupported-type
`TypeError` — in particular never an index error. -/
theorem serializeValue_error_shape (key : String) (v : Py) (e : PyErr)
    (h : serializeValue key v = .error e) : ∃ t k, e = .unsupportedType t k := by
  cases v with
  | str s => simp [serializeValue] at h
  | int n => simp [serializeValue] at h
  | bool b => simp [serializeValue] at h
  | float q => simp [serializeValue] at h
  | none => simp [serializeValue] at h
  | other t =>
      simp [serializeValue] at h
      exact ⟨t, key, h.symm⟩
  | dict fs =>
      cases hfs : serializeFields fs with
      | ok sfs => simp [serializeValue, hfs, ok_bind] at h
      | error e' =>
          simp [serializeValue, hfs, error_bind] at h
          subst h
          exact serializeFields_error_shape fs e' hfs
  | list es =>
      cases hes : serializeList es with
      | ok ses => simp [serializeValue, hes, ok_bind] at h
      | error e' =>
          simp [serializeValue, hes, error_bind] at h
          subst h
          exact serializeList_error_shape es e' hes
termination_by sizeOf v

theorem serializeFields_error_shape (fs : List (String × Py)) (e : PyErr)
    (h : serializeFields fs = .error e) : ∃ t k, e = .unsupportedType t k := by
  match fs with
  | [] => simp [serializeFields] at h
  | (k, v) :: rest =>
      cases hv : serializeValue k v with
      | error e' =>
          simp [serializeFields, hv, error_bind] at h
          subst h
          exact serializeValue_error_shape k v e' hv
      | ok w =>
          cases hrest : serializeFields rest with
          | error e' =>
              simp [serializeFields, hv, hrest, ok_bind, error_bind] at h
              subst h
              exact serializeFields_error_shape rest e' hrest
          | ok ws => simp [serializeFields, hv, hrest, ok_bind] at h
termination_by sizeOf fs

theorem serializeList_error_shape (es : List Py) (e : PyErr)
    (h : serializeList es = .error e) : ∃ t k, e = .unsupportedType t k := by
  match es with
  | [] => simp [serializeList] at h
  | .dict fs :: rest =>
      cases hfs : serializeFields fs with
      | error e' =>
          simp [serializeList, hfs, error_bind] at h
          subst h
          exact serializeFields_error_shape fs e' hfs
      | ok sfs =>
          cases hrest : serializeList rest with
          | error e' =>
              simp [serializeList, hfs, hrest, ok_bind, error_bind] at h
              subst h
              exact serializeList_error_shape rest e' hrest
          | ok ws => simp [serializeList, hfs, hrest, ok_bind] at h
  | .str s :: rest =>
      cases hrest : serializeList rest with
      | error e2 =>
          simp [serializeList, hrest, ok_bind, error_bind] at h
          subst h
          exact serializeList_error_shape rest e2 hrest
      | ok ws => simp [serializeList, hrest, ok_bind] at h
  | .int n :: rest =>
      cases hrest : serializeList rest with
      | error e2 =>
          simp [serializeList, hrest, ok_bind, error_bind] at h
          subst h
          exact serializeList_error_shape rest e2 hrest
      | ok ws => simp [serializeList, hrest, ok_bind] at h
  | .bool b :: rest =>
      cases hrest : serializeList rest with
      | error e2 =>
          simp [serializeList, hrest, ok_bind, error_bind] at h
          subst h
          exact serializeList_error_shape rest e2 hrest
      | ok ws => simp [serializeList, hrest, ok_bind] at h
  | .float q :: rest =>
      cases hrest : serializeList rest with
      | error e2 =>
          simp [serializeList, hrest, ok_bind, error_bind] at h
          subst h
          exact serializeList_error_shape rest e2 hrest
      | ok ws => simp [serializeList, hrest, ok_bind] at h
  | .none :: rest =>
      cases hrest : serializeList rest with
      | error e2 =>
          simp [serializeList, hrest, ok_bind, error_bind] at h
          subst h
          exact serializeList_error_shape rest e2 hrest
      | ok ws => simp [serializeList, hrest, ok_bind] at h
  | .list es2 :: rest =>
      cases hrest : serializeList rest with
      | error e2 =>
          simp [serializeList, hrest, ok_bind, error_bind] at h
          subst h
          exact serializeList_error_shape rest e2 hrest
      | ok ws => simp [serializeList, hrest, ok_bind] at h
  | .other t :: rest =>
      cases hrest : serializeList rest with
      | error e2 =>
          simp [serializeList, hrest, ok_bind, error_bind] at h
          subst h
          exact serializeList_error_shape rest e2 hrest
      | ok ws => simp [serializeList, hrest, ok_bind] at h
termination_by sizeOf es

end

/-- C5.  With `currentCount` the length of the history read for `key`,
`add_message(key, m, idx)` fails with the index error
`ValueError(f"Index out of bounds: {idx}")` exactly when an index is given
and exceeds `currentCount`; an omitted index defaults to `currentCount`,
and the write then succeeds (one upserted item at that row key). -/
theorem add_message_index_check (st : Store) (key : String) (m : ChatMessage)
    (msgs : List ChatMessage) (h : get_messages st key = .ok msgs) :
    (∀ i : Int,
      (∃ e : Int, add_message st key m (some i) = .error (.indexOutOfBounds e)) ↔
        (msgs.length : Int) < i)
    ∧ (∀ p, serializeFields m.fields = .ok p →
        add_message st key m Option.none
          = .ok (put_item st ⟨key, to_row_key (msgs.length : Int), p⟩)) := by
  have h1 : ∀ i : Int, add_message st key m (some i)
      = if (msgs.length : Int) < i then Except.error (.indexOutOfBounds i)
        else ((serializeFields m.fields) >>=
          fun p => pure (put_item st ⟨key, to_row_key i, p⟩)) := by
    intro i
    simp [add_message, h, ok_bind, gt_iff_lt]
  have h2 : add_message st key m Option.none
      = (serializeFields m.fields) >>=
          fun p => pure (put_item st ⟨key, to_row_key (msgs.length : Int), p⟩) := by
    simp [add_message, h, ok_bind]
  constructor
  · intro i
    constructor
    · rintro ⟨e, he⟩
      by_contra hle
      rw [h1 i, if_neg hle] at he
      cases hs : serializeFields m.fields with
      | ok p =>
          rw [hs, ok_bind] at he
          exact Except.noConfusion he
      | error e' =>
          rw [hs, error_bind] at he
          obtain ⟨t, k, rfl⟩ := serializeFields_error_shape m.fields e' hs
          simp at he
    · intro hlt
      refine ⟨i, ?_⟩
      rw [h1 i, if_pos hlt]
  · intro p hp
    rw [h2, hp, ok_bind]
    rfl

/-- Witness for `add_message_index_check`: empty store, so the history is
empty; index 5 exceeds count 0 and fails, the omitted index succeeds. -/
theorem add_message_index_check_witness :
    get_messages [] "conv" = .ok []
    ∧ serializeFields [("content", Py.str "hi")]
        = .ok [("content", .dict [("S", .str "hi")])]
    ∧ ((∃ e : Int, add_message [] "conv" ⟨[("content", Py.str "hi")]⟩ (some 5)
          = .error (.indexOutOfBounds e))
        ∧ add_message [] "conv" ⟨[("content", Py.str "hi")]⟩ Option.none
          = .ok (put_item [] ⟨"conv", to_row_key ((List.length ([] : List ChatMessage)) : Int),
              [("content", .dict [("S", .str "hi")])]⟩)) :=
  ⟨rfl, rfl,
   (add_message_index_check [] "conv" ⟨[("content", Py.str "hi")]⟩ [] rfl).1 5
      |>.mpr (by decide),
   (add_message_index_check [] "conv" ⟨[("content", Py.str "hi")]⟩ [] rfl).2
      [("content", .dict [("S", .str "hi")])] rfl⟩

theorem serializeList_ok_cons {v : Py} {rest tl : List Py}
    (h : serializeList (v :: rest) = .ok tl) :
    ∃ sv trest, tl = sv :: trest ∧ serializeList rest = .ok trest
      ∧ ((∀ fs, v ≠ Py.dict fs) → sv = v)
      ∧ ∀ fs, v = Py.dict fs →
          ∃ sfs, serializeFields fs = .ok sfs ∧ sv = Py.dict sfs := by
  cases v with
  | dict fs =>
      cases hfs : serializeFields fs with
      | error e => simp [serializeList, hfs, error_bind] at h
      | ok sfs =>
          cases hrest : serializeList rest with
          | error e => simp [serializeList, hfs, hrest, ok_bind, error_bind] at h
          | ok trest =>
              simp [serializeList, hfs, hrest, ok_bind] at h
              refine ⟨.dict sfs, trest, h.symm, rfl, ?_, ?_⟩
              · intro hne
                exact absurd rfl (hne fs)
              · intro fs' heq
                injection heq with hfs'
                subst hfs'
                exact ⟨sfs, hfs, rfl⟩
  | str s =>
      cases hrest : serializeList rest with
      | error e => simp [serializeList, hrest, ok_bind, error_bind] at h
      | ok trest =>
          simp [serializeList, hrest, ok_bind] at h
          exact ⟨.str s, trest, h.symm, rfl, fun _ => rfl,
            fun fs heq => by simp at heq⟩
  | int n =>
      cases hrest : serializeList rest with
      | error e => simp [serializeList, hrest, ok_bind, error_bind] at h
      | ok trest =>
          simp [serializeList, hrest, ok_bind] at h
          exact ⟨.int n, trest, h.symm, rfl, fun _ => rfl,
            fun fs heq => by simp at heq⟩
  | bool b =>
      cases hrest : serializeList rest with
      | error e => simp [serializeList, hrest, ok_bind, error_bind] at h
      | ok trest =>
          simp [serializeList, hrest, ok_bind] at h
          exact ⟨.bool b, trest, h.symm, rfl, fun _ => rfl,
            fun fs heq => by simp at heq⟩
  | float q =>
      cases hrest : serializeList rest with
      | error e => simp [serializeList, hrest, ok_bind, error_bind] at h
      | ok trest =>
          simp [serializeList, hrest, ok_bind] at h
          exact ⟨.float q, trest, h.symm, rfl, fun _ => rfl,
            fun fs heq => by simp at heq⟩
  | none =>
      cases hrest : serializeList rest with
      | error e => simp [serializeList, hrest, ok_bind, error_bind] at h
      | ok trest =>
          simp [serializeList, hrest, ok_bind] at h
          exact ⟨.none, trest, h.symm, rfl, fun _ => rfl,
            fun fs heq => by simp at heq⟩
  | list es =>
      cases hrest : serializeList rest with
      | error e => simp [serializeList, hrest, ok_bind, error_bind] at h
      | ok trest =>
          simp [serializeList, hrest, ok_bind] at h
          exact ⟨.list es, trest, h.symm, rfl, fun _ => rfl,
            fun fs heq => by simp at heq⟩
  | other t =>
      cases hrest : serializeList rest with
      | error e => simp [serializeList, hrest, ok_bind, error_bind] at h
      | ok trest =>
          simp [serializeList, hrest, ok_bind] at h
          exact ⟨.other t, trest, h.symm, rfl, fun _ => rfl,
            fun fs heq => by simp at heq⟩

theorem deserializeList_ok_cons {v : Py} {rest pl : List Py}
    (h : deserializeList (v :: rest) = .ok pl) :
    ∃ dv prest, pl = dv :: prest ∧ deserializeList rest = .ok prest
      ∧ ((∀ fs, v ≠ Py.dict fs) → dv = v)
      ∧ ∀ fs, v = Py.dict fs →
          ∃ dfs, deserializeFields fs = .ok dfs ∧ dv = Py.dict dfs := by
  cases v with
  | dict fs =>
      cases hfs : deserializeFields fs with
      | error e => simp [deserializeList, hfs, error_bind] at h
      | ok dfs =>
          cases hrest : deserializeList rest with
          | error e => simp [deserializeList, hfs, hrest, ok_bind, error_bind] at h
          | ok prest =>
              simp [deserializeList, hfs, hrest, ok_bind] at h
              refine ⟨.dict dfs, prest, h.symm, rfl, ?_, ?_⟩
              · intro hne
                exact absurd rfl (hne fs)
              · intro fs' heq
                injection heq with hfs'
                subst hfs'
                exact ⟨dfs, hfs, rfl⟩
  | str s =>
      cases hrest : deserializeList rest with
      | error e => simp [deserializeList, hrest, ok_bind, error_bind] at h
      | ok prest =>
          simp [deserializeList, hrest, ok_bind] at h
          exact ⟨.str s, prest, h.symm, rfl, fun _ => rfl,
            fun fs heq => by simp at heq⟩
  | int n =>
      cases hrest : deserializeList rest with
      | error e => simp [deserializeList, hrest, ok_bind, error_bind] at h
      | ok prest =>
          simp [deserializeList, hrest, ok_bind] at h
          exact ⟨.int n, prest, h.symm, rfl, fun _ => rfl,
            fun fs heq => by simp at heq⟩
  | bool b =>
      cases hrest : deserializeList rest with
      | error e => simp [deserializeList, hrest, ok_bind, error_bind] at h
      | ok prest =>
          simp [deserializeList, hrest, ok_bind] at h
          exact ⟨.bool b, prest, h.symm, rfl, fun _ => rfl,
            fun fs heq => by simp at heq⟩
  | float q =>
      cases hrest : deserializeList rest with
      | error e => simp [deserializeList, hrest, ok_bind, error_bind] at h
      | ok prest =>
          simp [deserializeList, hrest, ok_bind] at h
          exact ⟨.float q, prest, h.symm, rfl, fun _ => rfl,
            fun fs heq => by simp at heq⟩
  | none =>
      cases hrest : deserializeList rest with
      | error e => simp [deserializeList, hrest, ok_bind, error_bind] at h
      | ok prest =>
          simp [deserializeList, hrest, ok_bind] at h
          exact ⟨.none, prest, h.symm, rfl, fun _ => rfl,
            fun fs heq => by simp at heq⟩
  | list es =>
      cases hrest : deserializeList rest with
      | error e => simp [deserializeList, hrest, ok_bind, error_bind] at h
      | ok prest =>
          simp [deserializeList, hrest, ok_bind] at h
          exact ⟨.list es, prest, h.symm, rfl, fun _ => rfl,
            fun fs heq => by simp at heq⟩
  | other t =>
      cases hrest : deserializeList rest with
      | error e => simp [deserializeList, hrest, ok_bind, error_bind] at h
      | ok prest =>
          simp [deserializeList, hrest, ok_bind] at h
          exact ⟨.other t, prest, h.symm, rfl, fun _ => rfl,
            fun fs heq => by simp at heq⟩

theorem serializeList_elementwise (l : List Py) :
    ∀ tl, serializeList l = .ok tl →
      tl.length = l.length
      ∧ ∀ (i : Nat) (hi : i < l.length) (hi' : i < tl.length),
          ((∀ fs, l.get ⟨i, hi⟩ ≠ Py.dict fs) → tl.get ⟨i, hi'⟩ = l.get ⟨i, hi⟩)
          ∧ ∀ fs, l.get ⟨i, hi⟩ = Py.dict fs →
              ∃ sfs, serializeFields fs = .ok sfs
                ∧ tl.get ⟨i, hi'⟩ = Py.dict sfs := by
  induction l with
  | nil =>
      intro tl h
      simp [serializeList] at h
      subst h
      exact ⟨rfl, fun i hi => absurd hi (by simp)⟩
  | cons v rest ih =>
      intro tl h
      obtain ⟨sv, trest, rfl, hrest, hpass, hdict⟩ := serializeList_ok_cons h
      obtain ⟨hlen, hidx⟩ := ih trest hrest
      refine ⟨by simp [hlen], ?_⟩
      intro i hi hi'
      cases i with
      | zero => exact ⟨fun hne => hpass hne, fun fs heq => hdict fs heq⟩
      | succ i =>
          have hi2 : i < rest.length := by simpa using hi
          have hi2' : i < trest.length := by simpa using hi'
          exact hidx i hi2 hi2'

theorem deserializeList_elementwise (dl : List Py) :
    ∀ pl, deserializeList dl = .ok pl →
      pl.length = dl.length
      ∧ ∀ (i : Nat) (hi : i < dl.length) (hi' : i < pl.length),
          ((∀ fs, dl.get ⟨i, hi⟩ ≠ Py.dict fs) → pl.get ⟨i, hi'⟩ = dl.get ⟨i, hi⟩)
          ∧ ∀ fs, dl.get ⟨i, hi⟩ = Py.dict fs →
              ∃ dfs, deserializeFields fs = .ok dfs
                ∧ pl.get ⟨i, hi'⟩ = Py.dict dfs := by
  induction dl with
  | nil =>
      intro pl h
      simp [deserializeList] at h
      subst h
      exact ⟨rfl, fun i hi => absurd hi (by simp)⟩
  | cons v rest ih =>
      intro pl h
      obtain ⟨dv, prest, rfl, hrest, hpass, hdict⟩ := deserializeList_ok_cons h
      obtain ⟨hlen, hidx⟩ := ih prest hrest
      refine ⟨by simp [hlen], ?_⟩
      intro i hi hi'
      cases i with
      | zero => exact ⟨fun hne => hpass hne, fun fs heq => hdict fs heq⟩
      | succ i =>
          have hi2 : i < rest.length := by simpa using hi
          have hi2' : i < prest.length := by simpa using hi'
          exact hidx i hi2 hi2'

/-- C8.  In a list-valued field, `serialize` recursively encodes exactly the
elements that are dictionaries and passes every other element through
unencoded; `deserialize`'s list branch is the mirror image — elements that
are dictionaries are recursively decoded, everything else is passed through
unchanged — and on lists whose dictionary elements round-trip it inverts
the encoding. -/
theorem list_field_asymmetry :
    (∀ l tl : List Py, serializeList l = .ok tl →
      tl.length = l.length
      ∧ ∀ (i : Nat) (hi : i < l.length) (hi' : i < tl.length),
          ((∀ fs, l.get ⟨i, hi⟩ ≠ Py.dict fs) → tl.get ⟨i, hi'⟩ = l.get ⟨i, hi⟩)
          ∧ ∀ fs, l.get ⟨i, hi⟩ = Py.dict fs →
              ∃ sfs, serializeFields fs = .ok sfs
                ∧ tl.get ⟨i, hi'⟩ = Py.dict sfs)
    ∧ (∀ dl pl : List Py, deserializeList dl = .ok pl →
      pl.length = dl.length
      ∧ ∀ (i : Nat) (hi : i < dl.length) (hi' : i < pl.length),
          ((∀ fs, dl.get ⟨i, hi⟩ ≠ Py.dict fs) → pl.get ⟨i, hi'⟩ = dl.get ⟨i, hi⟩)
          ∧ ∀ fs, dl.get ⟨i, hi⟩ = Py.dict fs →
              ∃ dfs, deserializeFields fs = .ok dfs
                ∧ pl.get ⟨i, hi'⟩ = Py.dict dfs)
    ∧ (∀ es : List Py, goodElems es = true →
        ∃ tes, serializeList es = .ok tes ∧ deserializeList tes = .ok es) :=
  ⟨fun l tl h => serializeList_elementwise l tl h,
   fun dl pl h => deserializeList_elementwise dl pl h,
   fun es h => roundtrip_elems es h⟩

/-- Witness for `list_field_asymmetry` on `[7, {"a": "x"}]`: the scalar
passes through raw, the dictionary is recursively encoded, and the decode
side inverts it. -/
theorem list_field_asymmetry_witness :
    serializeList [Py.int 7, Py.dict [("a", .str "x")]]
        = .ok [Py.int 7, Py.dict [("a", .dict [("S", .str "x")])]]
    ∧ goodElems [Py.int 7, Py.dict [("a", .str "x")]] = true
    ∧ ([Py.int 7, Py.dict [("a", .dict [("S", .str "x")])]].length
        = [Py.int 7, Py.dict [("a", .str "x")]].length)
    ∧ (∃ tes, serializeList [Py.int 7, Py.dict [("a", .str "x")]] = .ok tes
        ∧ deserializeList tes = .ok [Py.int 7, Py.dict [("a", .str "x")]]) :=
  ⟨rfl, rfl,
   (list_field_asymmetry.1 [Py.int 7, Py.dict [("a", .str "x")]]
      [Py.int 7, Py.dict [("a", .dict [("S", .str "x")])]] rfl).1,
   list_field_asymmetry.2.2 [Py.int 7, Py.dict [("a", .str "x")]] rfl⟩

/-! ### `set_messages` followed by `get_messages` -/

/-- The serialized payload of a message (defined when serialization
succeeds, which `goodFields` guarantees). -/
def payloadOf (m : ChatMessage) : List (String × Py) :=
  (serializeFields m.fields).toOption.getD []

/-- The items `set_messages` writes for `msgs` starting at index `start`. -/
def itemsFor (key : String) : List ChatMessage → Nat → List Item
  | [], _ => []
  | m :: rest, start =>
      ⟨key, to_row_key (start : Int), payloadOf m⟩ :: itemsFor key rest (start + 1)

theorem payloadOf_spec {m : ChatMessage} (h : goodFields m.fields = true) :
    serializeFields m.fields = .ok (payloadOf m)
    ∧ deserializeFields (payloadOf m) = .ok m.fields := by
  obtain ⟨tfs, hs, hd⟩ := roundtrip_fields m.fields h
  have hp : payloadOf m = tfs := by
    simp [payloadOf, hs, Except.toOption]
  rw [hp]
  exact ⟨hs, hd⟩

theorem mem_insertByRk {a x : Item} {l : List Item} :
    a ∈ insertByRk x l ↔ a = x ∨ a ∈ l := by
  induction l with
  | nil => simp [insertByRk]
  | cons y ys ih =>
      simp only [insertByRk]
      split
      · simp
      · simp [ih]
        tauto

theorem mem_sortByRk {a : Item} : ∀ {l : List Item}, a ∈ sortByRk l ↔ a ∈ l := by
  intro l
  induction l with
  | nil => simp [sortByRk]
  | cons x xs ih => simp [sortByRk, mem_insertByRk, ih]

theorem insertByRk_of_le {x : Item} {l : List Item}
    (h : ∀ y ∈ l, x.rk ≤ y.rk) : insertByRk x l = x :: l := by
  cases l with
  | nil => rfl
  | cons y ys => simp [insertByRk, h y (by simp)]

theorem sortByRk_of_sorted :
    ∀ {l : List Item}, List.Pairwise (fun a b => a.rk ≤ b.rk) l →
      sortByRk l = l := by
  intro l
  induction l with
  | nil => intro _; rfl
  | cons x xs ih =>
      intro h
      rw [List.pairwise_cons] at h
      show insertByRk x (sortByRk xs) = x :: xs
      rw [ih h.2, insertByRk_of_le h.1]

theorem foldl_delete_eq_filter (key : String) :
    ∀ (L : List Item) (st : Store),
      L.foldl (fun s it => delete_item s key it.rk) st
        = st.filter
            (fun it => !(it.pk == key && L.any (fun x => x.rk == it.rk))) := by
  intro L
  induction L with
  | nil =>
      intro st
      simp
  | cons x L ih =>
      intro st
      rw [List.foldl_cons, ih]
      show (delete_item st key x.rk).filter _ = _
      unfold delete_item
      rw [List.filter_filter]
      apply List.filter_congr
      intro it hit
      by_cases h1 : it.pk = key
      · by_cases h2 : it.rk = x.rk
        · simp [h1, h2]
        · have e1 : (it.rk == x.rk) = false := by simp [h2]
          have e2 : (x.rk == it.rk) = false := by
            simp
            exact fun hh => h2 hh.symm
          simp [h1, e1, e2]
      · have e0 : (it.pk == key) = false := by simp [h1]
        simp [e0]

/-- Batch-deleting every item `query` returned for `key` removes exactly the
partition's items. -/
theorem delete_phase (st : Store) (key : String) :
    (query st key).foldl (fun s it => delete_item s key it.rk) st
      = st.filter (fun it => !(it.pk == key)) := by
  rw [foldl_delete_eq_filter]
  apply List.filter_congr
  intro it hit
  by_cases h1 : it.pk = key
  · have hmem : it ∈ query st key := by
      unfold query
      rw [mem_sortByRk, List.mem_filter]
      exact ⟨hit, by simp [h1]⟩
    have hany : (query st key).any (fun x => x.rk == it.rk) = true :=
      List.any_eq_true.mpr ⟨it, hmem, by simp⟩
    simp [h1, hany]
  · simp [h1]

theorem itemsFor_pk {key : String} :
    ∀ {msgs : List ChatMessage} {n : Nat} {it : Item},
      it ∈ itemsFor key msgs n → it.pk = key := by
  intro msgs
  induction msgs with
  | nil => intro n it h; simp [itemsFor] at h
  | cons m rest ih =>
      intro n it h
      simp only [itemsFor, List.mem_cons] at h
      rcases h with h | h
      · subst h; rfl
      · exact ih h

theorem itemsFor_rk {key : String} :
    ∀ {msgs : List ChatMessage} {n : Nat} {it : Item},
      it ∈ itemsFor key msgs n →
        ∃ i : Nat, n ≤ i ∧ i < n + msgs.length ∧ it.rk = to_row_key (i : Int) := by
  intro msgs
  induction msgs with
  | nil => intro n it h; simp [itemsFor] at h
  | cons m rest ih =>
      intro n it h
      simp only [itemsFor, List.mem_cons] at h
      rcases h with h | h
      · subst h
        exact ⟨n, le_refl n, by simp, rfl⟩
      · obtain ⟨i, h1, h2, h3⟩ := ih h
        exact ⟨i, by omega, by simp; omega, h3⟩

theorem itemsFor_sorted {key : String} :
    ∀ {msgs : List ChatMessage} {n : Nat}, n + msgs.length ≤ 10 ^ 10 →
      List.Pairwise (fun a b : Item => a.rk ≤ b.rk) (itemsFor key msgs n) := by
  intro msgs
  induction msgs with
  | nil => intro n _; simp [itemsFor]
  | cons m rest ih =>
      intro n hlen
      simp only [itemsFor]
      rw [List.pairwise_cons]
      constructor
      · intro y hy
        obtain ⟨i, h1, h2, h3⟩ := itemsFor_rk hy
        rw [h3]
        show to_row_key ((n : Nat) : Int) ≤ to_row_key (i : Int)
        apply le_of_lt
        apply to_row_key_strictMono (by positivity) (by exact_mod_cast h1)
        have : i < 10 ^ 10 := by
          simp at hlen h2
          omega
        exact_mod_cast this
      · apply ih
        simp at hlen ⊢
        omega

/-- The put phase of `set_messages`: starting from a store with no item at
the row keys about to be written, the batch of puts appends exactly one item
per message, in enumeration order. -/
theorem put_loop (key : String) :
    ∀ (msgs : List ChatMessage) (n : Nat) (s0 : Store),
      (∀ m ∈ msgs, goodFields m.fields = true) →
      (n + msgs.length ≤ 10 ^ 10) →
      (∀ it ∈ s0, it.pk = key →
        ∀ i : Nat, n ≤ i → i < n + msgs.length → it.rk ≠ to_row_key (i : Int)) →
      List.foldlM (fun s p => do
          let payload ← serializeFields p.2.fields
          pure (put_item s ⟨key, to_row_key (p.1 : Int), payload⟩))
        s0 (List.enumFrom n msgs)
        = .ok (s0 ++ itemsFor key msgs n) := by
  intro msgs
  induction msgs with
  | nil =>
      intro n s0 _ _ _
      show pure s0 = Except.ok (s0 ++ itemsFor key [] n)
      simp [itemsFor]
      rfl
  | cons m rest ih =>
      intro n s0 hgood hlen hinv
      have hm : goodFields m.fields = true := hgood m (by simp)
      have hser := (payloadOf_spec hm).1
      show List.foldlM _ s0 ((n, m) :: List.enumFrom (n + 1) rest) = _
      rw [List.foldlM_cons]
      show ((do
          let payload ← serializeFields m.fields
          pure (put_item s0 ⟨key, to_row_key ((n : Nat) : Int), payload⟩)) >>= _) = _
      rw [hser, ok_bind, epure_bind]
      have hdel : delete_item s0 key (to_row_key ((n : Nat) : Int)) = s0 := by
        unfold delete_item
        apply List.filter_eq_self.mpr
        intro it hit
        by_cases hpk : it.pk = key
        · have hne := hinv it hit hpk n (le_refl n) (by simp)
          simp [hpk, hne]
        · simp [hpk]
      have hput : put_item s0 ⟨key, to_row_key ((n : Nat) : Int), payloadOf m⟩
          = s0 ++ [⟨key, to_row_key ((n : Nat) : Int), payloadOf m⟩] := by
        show delete_item s0 key (to_row_key ((n : Nat) : Int)) ++ _ = _
        rw [hdel]
      rw [hput]
      have hinv' : ∀ it ∈ s0 ++ [⟨key, to_row_key ((n : Nat) : Int), payloadOf m⟩],
          it.pk = key → ∀ i : Nat, n + 1 ≤ i → i < (n + 1) + rest.length →
            it.rk ≠ to_row_key (i : Int) := by
        intro it hit hpk i h1 h2
        rcases List.mem_append.mp hit with hmem | hmem
        · exact hinv it hmem hpk i (by omega) (by simp; omega)
        · simp at hmem
          subst hmem
          show to_row_key ((n : Nat) : Int) ≠ to_row_key (i : Int)
          apply ne_of_lt
          apply to_row_key_strictMono (by positivity) (by exact_mod_cast h1)
          have : i < 10 ^ 10 := by
            simp at hlen
            omega
          exact_mod_cast this
      rw [ih (n + 1) _ (fun m' hm' => hgood m' (by simp [hm']))
        (by simp at hlen ⊢; omega) hinv']
      rw [List.append_assoc]
      rfl

/-- The read-back phase: deserializing the items written for `msgs`
reproduces `msgs`. -/
theorem get_itemsFor (key : String) :
    ∀ (msgs : List ChatMessage) (n : Nat),
      (∀ m ∈ msgs, goodFields m.fields = true) →
      (itemsFor key msgs n).mapM (fun it => do
          let d ← deserializeFields it.msg
          pure (ChatMessage.mk d)) = .ok msgs := by
  intro msgs
  induction msgs with
  | nil => intro n _; rfl
  | cons m rest ih =>
      intro n hgood
      have hm : goodFields m.fields = true := hgood m (by simp)
      have hdes := (payloadOf_spec hm).2
      have hih := ih (n + 1) (fun m' hm' => hgood m' (by simp [hm']))
      simp only [itemsFor, List.mapM_cons, hih, hdes, ok_bind, epure_bind]
      rfl

/-- C7, amended.  `set_messages(key, msgs)` followed by
`get_messages(key)` returns exactly `msgs`, in order, for histories of at
most `10^10` messages whose field dictionaries the codec round-trips
(no booleans, no negative integers, no unsupported types; floats whose
rendering re-parses); the store model supplies RowKey-ascending query order
and read-your-writes. -/
theorem set_then_get (st : Store) (key : String) (msgs : List ChatMessage)
    (hgood : ∀ m ∈ msgs, goodFields m.fields = true)
    (hlen : msgs.length ≤ 10 ^ 10) :
    (set_messages st key msgs).bind (fun st' => get_messages st' key)
      = .ok msgs := by
  have hnokey : ∀ it ∈ st.filter (fun it => !(it.pk == key)), it.pk ≠ key := by
    intro it hit
    rw [List.mem_filter] at hit
    simpa using hit.2
  have hput := put_loop key msgs 0 (st.filter (fun it => !(it.pk == key)))
    hgood (by omega) (fun it hit hpk => absurd hpk (hnokey it hit))
  have hset : set_messages st key msgs
      = .ok (st.filter (fun it => !(it.pk == key)) ++ itemsFor key msgs 0) := by
    show List.foldlM _
        ((query st key).foldl (fun s it => delete_item s key it.rk) st)
        msgs.enum = _
    rw [delete_phase]
    show List.foldlM _ _ (List.enumFrom 0 msgs) = _
    exact hput
  rw [hset]
  show get_messages
      (st.filter (fun it => !(it.pk == key)) ++ itemsFor key msgs 0) key
    = .ok msgs
  unfold get_messages query
  rw [List.filter_append]
  have h1 : (st.filter (fun it => !(it.pk == key))).filter
      (fun it => it.pk == key) = [] := by
    rw [List.filter_eq_nil_iff]
    intro a ha
    simpa using hnokey a ha
  have h2 : (itemsFor key msgs 0).filter (fun it => it.pk == key)
      = itemsFor key msgs 0 := by
    apply List.filter_eq_self.mpr
    intro it hit
    simp [itemsFor_pk hit]
  rw [h1, h2, List.nil_append,
    sortByRk_of_sorted (itemsFor_sorted (by omega))]
  exact get_itemsFor key msgs 0 hgood

/-- Witness for `set_then_get`: one message with a single string field. -/
theorem set_then_get_witness :
    (∀ m ∈ [(⟨[("content", Py.str "hi")]⟩ : ChatMessage)],
        goodFields m.fields = true)
    ∧ ([(⟨[("content", Py.str "hi")]⟩ : ChatMessage)].length ≤ 10 ^ 10)
    ∧ (set_messages [] "conv" [⟨[("content", Py.str "hi")]⟩]).bind
        (fun st' => get_messages st' "conv")
      = .ok [⟨[("content", Py.str "hi")]⟩] :=
  ⟨fun m hm => by
      simp at hm
      subst hm
      rfl,
   by norm_num,
   set_then_get [] "conv" [⟨[("content", Py.str "hi")]⟩]
     (fun m hm => by
        simp at hm
        subst hm
        rfl)
     (by norm_num)⟩

/-- C7, counterexample.  The claim quantifies over every list of messages;
a message with a boolean field refutes it: the field encodes as
`{"N": "True"}` (booleans pass the `isinstance(int)` check), and reading the
history back raises `ValueError` from `float("True")` instead of returning
the stored list. -/
theorem set_get_bool_message_fails :
    (set_messages [] "conv" [⟨[("flag", .bool true)]⟩]).bind
        (fun st' => get_messages st' "conv") = .error (.valueError "True")
    ∧ (set_messages [] "conv" [⟨[("flag", .bool true)]⟩]).bind
        (fun st' => get_messages st' "conv")
      ≠ .ok [⟨[("flag", .bool true)]⟩] := by
  have hset : set_messages [] "conv" [⟨[("flag", .bool true)]⟩]
      = .ok [⟨"conv", to_row_key 0, [("flag", .dict [("N", .str "True")])]⟩] := rfl
  have hget : get_messages
      [⟨"conv", to_row_key 0, [("flag", .dict [("N", .str "True")])]⟩] "conv"
      = .error (.valueError "True") := by
    simp [get_messages, query, sortByRk, insertByRk, List.mapM_cons,
      List.mapM.loop, Except.map, deserializeFields, deserializeValue,
      lookupTag, pyIsdigit, pyFloat, ok_bind, error_bind, epure_bind]
  constructor
  · rw [hset]
    exact hget
  · rw [hset]
    intro hcontra
    rw [show (Except.ok
        [(⟨"conv", to_row_key 0, [("flag", .dict [("N", .str "True")])]⟩ : Item)]).bind
        (fun st' => get_messages st' "conv")
      = get_messages
          [⟨"conv", to_row_key 0, [("flag", .dict [("N", .str "True")])]⟩] "conv"
      from rfl, hget] at hcontra
    exact Except.noConfusion hcontra

end AwsChatStore
